import Mathlib

/-!
Shallow embedding of `symbolik.py` (CodeView NB00 debug-symbol parser):
the signature locator `findCodeview`, the subsection directory reader
`readSubsectionDirectory`, and the decoders `sstModules` / `sstPublics`.
Bytes are modelled as `Nat` (values 0..255), files as `List Nat`, machine
integers as `Nat` with explicit little-endian reassembly, and Python
exceptions (`struct.error`, `UnicodeDecodeError`, `ValueError`, seek
`OSError`) as an error type carried in `Except`.
-/

namespace Symbolik

set_option maxRecDepth 16000

/-- Python exceptions raised by the parser:
`structError` for `struct.error` (short buffer in `struct.unpack` /
`unpack_from`), `asciiError` for `UnicodeDecodeError` from
`bytes.decode(ascii)`, `valueError` for the `ValueError` raised by
`SST(sst)` on an undefined enumerant, `seekError` for the `OSError` /
`ValueError` raised by `fp.seek` when the target position is negative. -/
inductive PyErr where
  | structError
  | asciiError
  | valueError
  | seekError
deriving Repr, DecidableEq

/-- Little-endian 16-bit value from the first two bytes of a list
(struct format `<H`; callers check the length separately). -/
def u16le (b : List Nat) : Nat :=
  b.getD 0 0 + 256 * b.getD 1 0

/-- Little-endian 32-bit value from the first four bytes of a list
(struct format `<L`). -/
def u32le (b : List Nat) : Nat :=
  b.getD 0 0 + 256 * b.getD 1 0 + 65536 * b.getD 2 0 + 16777216 * b.getD 3 0

/-- Little-endian two-byte encoding of a 16-bit value (used to build the
synthetic payloads of the round-trip properties). -/
def le16 (v : Nat) : List Nat :=
  [v % 256, v / 256 % 256]

/-- Whether every byte is valid ASCII; `bytes.decode(ascii)` succeeds
exactly when all byte values are below 128. -/
def asciiOk (b : List Nat) : Bool :=
  b.all (fun c => c < 128)

/-- Python slice `data[-k:]`: for `k = 0` this is the WHOLE list (the
`-0 == 0` pitfall), otherwise the last `min k (length)` elements. -/
def pyTailSlice (d : List Nat) (k : Nat) : List Nat :=
  if k = 0 then d else d.drop (d.length - k)

/-- Python `range(start, stop, -1)`: the descending integers
`start, start-1, ...` of length `max 0 (start - stop)`. -/
def pyRangeDown (start stop : Int) : List Int :=
  (List.range (start - stop).toNat).map (fun i => start - Int.ofNat i)

/-! ## Subsection types (`class SST(IntEnum)`) -/

/-- The numeric values of the defined `SST` enumerants:
`SST_MODULES = 0x101`, `SST_PUBLICS = 0x102`, `SST_TYPE = 0x103`,
`SST_SYMBOLS = 0x104`, `SST_SRCLINES = 0x105`, `SST_LIBRARIES = 0x106`,
`SST_COMPACTED = 0x108`, `SST_SRCLNSEG = 0x109` (`0x107` is not defined). -/
def SSTvalues : List Nat :=
  [0x101, 0x102, 0x103, 0x104, 0x105, 0x106, 0x108, 0x109]

/-- Validation by `SST(sst)`: it succeeds exactly when `sst` is one of the defined
enumerant values; otherwise the constructor raises `ValueError`. -/
def sstValid (sst : Nat) : Bool :=
  SSTvalues.contains sst

/-! ## Decoded record types -/

/-- A decoded `sstModules` subsection: fields unpacked from the 13-byte
header `<HHHHHBBB` plus the name string taken from `data[-strlen:]`
(name kept as the list of its ASCII byte values). -/
structure ModuleRec where
  csBase : Nat
  csOfs : Nat
  csLen : Nat
  ovl : Nat
  libIndx : Nat
  nsegs : Nat
  string : List Nat
deriving Repr, DecidableEq

/-- One entry of an `sstPublics` subsection, from the repeated 7-byte
record `<HHHB` followed by `namelen` name bytes. -/
structure PublicSymbol where
  offset : Nat
  segment : Nat
  typeidx : Nat
  name : List Nat
deriving Repr, DecidableEq

/-- The decoded subsection handed back by the factory in
`readSubsectionDirectory`: a specialised record for `SST_MODULES` and
`SST_PUBLICS`, the plain `Subsection` base class for every other type.
Each variant keeps `sst`, `module` and the raw payload `data` exactly as
the Python constructors store them. -/
inductive Subsec where
  | plain (sst : Nat) (module : Nat) (data : List Nat)
  | modules (sst : Nat) (module : Nat) (data : List Nat) (rec : ModuleRec)
  | publics (sst : Nat) (module : Nat) (data : List Nat) (syms : List PublicSymbol)
deriving Repr, DecidableEq

/-- The raw payload bytes stored on a decoded subsection
(`self.data` set by `Subsection.__init__`). -/
def Subsec.payload : Subsec → List Nat
  | .plain _ _ d => d
  | .modules _ _ d _ => d
  | .publics _ _ d _ => d

/-! ## Decoders -/

/-- Model of `sstModules.__init__`: `struct.unpack_from(<HHHHHBBB, data)` needs at
least 13 bytes (fields `csBase, csOfs, csLen, ovl, libIndx` as u16,
`nsegs`, a skipped byte, and `strlen` as u8), then
`data[-strlen:].decode(ascii)` names the module. -/
def sstModulesDecode (data : List Nat) : Except PyErr ModuleRec :=
  if 13 ≤ data.length then
    let strlen := data.getD 12 0
    let raw := pyTailSlice data strlen
    if asciiOk raw then
      .ok { csBase := u16le (data.take 2)
            csOfs := u16le ((data.drop 2).take 2)
            csLen := u16le ((data.drop 4).take 2)
            ovl := u16le ((data.drop 6).take 2)
            libIndx := u16le ((data.drop 8).take 2)
            nsegs := data.getD 10 0
            string := raw }
    else .error .asciiError
  else .error .structError

/-- Loop body of `sstPublics.__init__`: while `dofs < len(data)`, unpack
the 7-byte record `<HHHB` at `dofs` (raising `struct.error` when fewer
than 7 bytes remain), slice `data[dofs+7 : dofs+7+namelen]` as the name
(Python slicing silently shortens a name that overruns the payload),
decode it as ASCII, and advance `dofs` by `7 + namelen`. The `fuel`
argument is a structural bound on the number of iterations; it is a
modelling device only: every call below passes `data.length + 1`, which
`parsePublicsFuel_fuel_safe` shows can never be exhausted, since each
iteration advances `dofs` by at least 7. -/
def parsePublicsFuel (data : List Nat) : Nat → Nat → Except PyErr (List PublicSymbol)
  | dofs, 0 => if dofs < data.length then .error .structError else .ok []
  | dofs, fuel + 1 =>
    if dofs < data.length then
      if dofs + 7 ≤ data.length then
        let b := (data.drop dofs).take 7
        let namelen := b.getD 6 0
        let nameB := (data.drop (dofs + 7)).take namelen
        if asciiOk nameB then
          match parsePublicsFuel data (dofs + 7 + namelen) fuel with
          | .ok rest =>
              .ok ({ offset := u16le (b.take 2)
                     segment := u16le ((b.drop 2).take 2)
                     typeidx := u16le ((b.drop 4).take 2)
                     name := nameB } :: rest)
          | .error e => .error e
        else .error .asciiError
      else .error .structError
    else .ok []

/-- Model of `sstPublics.__init__` without its side effect: parse the whole
payload from offset 0. -/
def sstPublicsDecode (data : List Nat) : Except PyErr (List PublicSymbol) :=
  parsePublicsFuel data 0 (data.length + 1)

/-! ## File model -/

/-- A binary-mode file object: its byte contents and the current
position of the read cursor. -/
structure FileState where
  bytes : List Nat
  pos : Nat
deriving Repr, DecidableEq

/-- Model of `fp.read(n)`: return up to `n` bytes from the current position
(short at end-of-file, never raising) and advance the cursor by the
number of bytes actually delivered. -/
def fread (s : FileState) (n : Nat) : List Nat × FileState :=
  ((s.bytes.drop s.pos).take n, ⟨s.bytes, min (s.pos + n) s.bytes.length⟩)

/-- Model of `fp.seek(p, 0)` to a non-negative absolute position (always
succeeds, even past end-of-file). -/
def fseekAbs (s : FileState) (p : Nat) : FileState :=
  ⟨s.bytes, p⟩

/-- Observable output of the parser beyond moving the file cursor:
`print(cdnt)` writing to stdout, and `open("pub","wb").write(data)`
inside `sstPublics.__init__` writing a payload dump to disk. -/
inductive Eff where
  | printOut (n : Nat)
  | fileWrite (name : String) (content : List Nat)
deriving Repr, DecidableEq

/-! ## Subsection directory reader -/

/-- The `FACTORY` dispatch of `readSubsectionDirectory` for one already
validated subsection type: `SST_MODULES` and `SST_PUBLICS` run their
specialised constructors (the publics constructor first dumps its raw
payload to the file `"pub"`), every other defined type is wrapped as a
plain `Subsection`. Returns the effects performed together with the
decode result. -/
def decodeSub (sst module : Nat) (data : List Nat) :
    List Eff × Except PyErr Subsec :=
  if sst = 0x101 then
    ([], (sstModulesDecode data).map (Subsec.modules sst module data))
  else if sst = 0x102 then
    ([Eff.fileWrite "pub" data],
     (sstPublicsDecode data).map (Subsec.publics sst module data))
  else
    ([], .ok (Subsec.plain sst module data))

/-- The `for i in range(cdnt)` loop of `readSubsectionDirectory`: read
the 10-byte header `<HHLH` (`sst, module, lfoStart, cb`), remember the
cursor, seek to `lfoStart + dlfaBase`, read `cb` payload bytes, seek
back, validate `sst` with `SST(sst)` (raising `ValueError` on an
undefined enumerant, before any decoder runs), then dispatch to the
factory. Errors abort the whole loop; effects performed before the
error are kept. -/
def readEntries (dlfaBase : Nat) :
    Nat → FileState → List Eff × Except PyErr (List Subsec × FileState)
  | 0, s => ([], .ok ([], s))
  | n + 1, s =>
    let r1 := fread s 10
    let hb := r1.1
    let s1 := r1.2
    if hb.length = 10 then
      let sst := u16le (hb.take 2)
      let module := u16le ((hb.drop 2).take 2)
      let lfoStart := u32le ((hb.drop 4).take 4)
      let cb := u16le (hb.drop 8)
      let pos := s1.pos
      let s2 := fseekAbs s1 (lfoStart + dlfaBase)
      let r2 := fread s2 cb
      let data := r2.1
      let s4 := fseekAbs r2.2 pos
      if sstValid sst then
        match decodeSub sst module data with
        | (effs, .error e) => (effs, .error e)
        | (effs, .ok sub) =>
          match readEntries dlfaBase n s4 with
          | (effs2, .error e) => (effs ++ effs2, .error e)
          | (effs2, .ok (subs, sF)) => (effs ++ effs2, .ok (sub :: subs, sF))
      else ([], .error .valueError)
    else ([], .error .structError)

/-- Model of `readSubsectionDirectory(fp, dlfaBase)`: read the 2-byte subsection
count `<H`, print it, then run the entry loop. -/
def readSubsectionDirectory (s : FileState) (dlfaBase : Nat) :
    List Eff × Except PyErr (List Subsec × FileState) :=
  let r := fread s 2
  if r.1.length = 2 then
    let cdnt := u16le r.1
    let rest := readEntries dlfaBase cdnt r.2
    (Eff.printOut cdnt :: rest.1, rest.2)
  else ([], .error .structError)

/-! ## Signature locator (`findCodeview`) -/

/-- Whether a byte string passes the Python startswith check against
the 3-byte tag `NB0` (`N` = 0x4E, `B` = 0x42, `0` = 0x30). -/
def isNB0 (b : List Nat) : Bool :=
  b.take 3 = [0x4E, 0x42, 0x30]

/-- The candidate trailer offsets scanned by `findCodeview`:
`range(-8, -256, -1)`, i.e. `-8, -9, ..., -255` relative to
end-of-file. -/
def candidates : List Int :=
  pyRangeDown (-8) (-256)

/-- One pass of the `for ofs in range(-8, -256, -1)` loop of
`findCodeview` over a list of remaining candidate offsets. At each
offset: `fp.seek(ofs, 2)` (raising when the resulting position is
negative, i.e. the file is shorter than `-ofs` bytes), unpack
`<4sL` from `fp.read(8)`, and when the signature starts with `NB0`
compute `dlfaBase = tell() - trailer`; a `dlfaBase` outside
`[0, szfile]` rejects the candidate, otherwise the 8 bytes at
`dlfaBase` are unpacked as `<4sL` and the nested signature must also
start with `NB0` for the candidate to be accepted, returning
`(sig.decode(ascii), dlfaBase, lfoSubsecDir + dlfaBase)`. -/
def scanCodeview (file : List Nat) :
    List Int → Except PyErr (Option (List Nat × Int × Int))
  | [] => .ok none
  | ofs :: rest =>
    let sz : Int := file.length
    let newpos := sz + ofs
    if newpos < 0 then .error .seekError
    else
      let p := newpos.toNat
      let b := (file.drop p).take 8
      if b.length = 8 then
        let sig := b.take 4
        let trailer := u32le (b.drop 4)
        if isNB0 sig then
          let dlfaBase : Int := ((p + 8 : Nat) : Int) - (trailer : Int)
          if dlfaBase < 0 ∨ sz < dlfaBase then scanCodeview file rest
          else
            let b2 := (file.drop dlfaBase.toNat).take 8
            if b2.length = 8 then
              let lfoSubsecDir := u32le (b2.drop 4)
              if isNB0 (b2.take 4) then
                if asciiOk sig then
                  .ok (some (sig, dlfaBase, (lfoSubsecDir : Int) + dlfaBase))
                else .error .asciiError
              else scanCodeview file rest
            else .error .structError
        else scanCodeview file rest
      else .error .structError

/-- Model of `findCodeview(fp)`: scan the 248 candidate trailer offsets and
return the signature, the debug-data base and the absolute subsection
directory offset, `none` when the scan exhausts all candidates. -/
def findCodeview (file : List Nat) :
    Except PyErr (Option (List Nat × Int × Int)) :=
  scanCodeview file candidates

/-! ## Synthetic encoders for the round-trip properties -/

/-- Pack a synthetic `sstModules` payload: the 13-byte fixed header
`<HHHHHBBB` with the name-length byte set to `name.length`, followed by
the name bytes. -/
def encodeModule (csBase csOfs csLen ovl libIndx nsegs rsvd : Nat)
    (name : List Nat) : List Nat :=
  le16 csBase ++ le16 csOfs ++ le16 csLen ++ le16 ovl ++ le16 libIndx ++
    [nsegs % 256, rsvd % 256, name.length % 256] ++ name

/-- Pack one synthetic public-symbol entry: the 7-byte record `<HHHB`
with the name-length byte set to `e.name.length`, immediately followed
by the name bytes. -/
def encodePubSym (e : PublicSymbol) : List Nat :=
  le16 e.offset ++ le16 e.segment ++ le16 e.typeidx ++
    [e.name.length % 256] ++ e.name

/-- Concatenate the packed entries of a synthetic `sstPublics`
payload. -/
def encodePublics : List PublicSymbol → List Nat
  | [] => []
  | e :: rest => encodePubSym e ++ encodePublics rest

/-- A public-symbol entry whose fields fit the on-disk field widths:
u16 offset, segment and type index, a u8 name length that matches the
name, and an ASCII name. -/
def pubWF (e : PublicSymbol) : Prop :=
  e.offset < 65536 ∧ e.segment < 65536 ∧ e.typeidx < 65536 ∧
    e.name.length ≤ 255 ∧ asciiOk e.name = true

instance (e : PublicSymbol) : Decidable (pubWF e) := by
  unfold pubWF; infer_instance

/-- The fields of one subsection directory header as unpacked by
`struct.unpack(<HHLH, fp.read(10))` at byte position `hpos` of the
file: `none` when fewer than 10 bytes are available. -/
def headerFields (bytes : List Nat) (hpos : Nat) :
    Option (Nat × Nat × Nat × Nat) :=
  let hb := (bytes.drop hpos).take 10
  if hb.length = 10 then
    some (u16le (hb.take 2), u16le ((hb.drop 2).take 2),
          u32le ((hb.drop 4).take 4), u16le (hb.drop 8))
  else none

instance {ε α : Type} [DecidableEq ε] [DecidableEq α] :
    DecidableEq (Except ε α) := fun a b =>
  match a, b with
  | .ok x, .ok y =>
    if h : x = y then .isTrue (by rw [h]) else .isFalse (by simp [h])
  | .error x, .error y =>
    if h : x = y then .isTrue (by rw [h]) else .isFalse (by simp [h])
  | .ok _, .error _ => .isFalse (by simp)
  | .error _, .ok _ => .isFalse (by simp)

/-! ## Helper lemmas about the public-symbol parser -/

lemma encodePubSym_eq (e : PublicSymbol) :
    encodePubSym e =
      [e.offset % 256, e.offset / 256 % 256, e.segment % 256,
       e.segment / 256 % 256, e.typeidx % 256, e.typeidx / 256 % 256,
       e.name.length % 256] ++ e.name := by
  simp [encodePubSym, le16]

lemma length_encodePubSym (e : PublicSymbol) :
    (encodePubSym e).length = 7 + e.name.length := by
  simp [encodePubSym_eq]; omega

lemma length_encodePublics_ge (es : List PublicSymbol) :
    es.length ≤ (encodePublics es).length := by
  induction es with
  | nil => simp [encodePublics]
  | cons e r ih =>
    simp only [encodePublics, List.length_append, List.length_cons,
      length_encodePubSym]
    omega

/-- The parse loop exits with an empty tail of symbols as soon as the
cursor reaches (or passes) the end of the payload, whatever fuel
remains. -/
lemma parsePublicsFuel_exit (data : List Nat) (dofs fuel : Nat)
    (h : data.length ≤ dofs) : parsePublicsFuel data dofs fuel = .ok [] := by
  cases fuel <;> · rw [parsePublicsFuel]; rw [if_neg (by omega)]

/-- Parsing a payload that continues with one well-formed packed entry
consumes exactly that entry and one unit of fuel. -/
lemma parsePublicsFuel_step (pre suf : List Nat) (e : PublicSymbol)
    (fuel : Nat) (wf : pubWF e) :
    parsePublicsFuel (pre ++ (encodePubSym e ++ suf)) pre.length (fuel + 1)
      = Except.map (fun l => e :: l)
          (parsePublicsFuel (pre ++ (encodePubSym e ++ suf))
            (pre.length + 7 + e.name.length) fuel) := by
  obtain ⟨ho, hs, ht, hn, ha⟩ := wf
  obtain ⟨o, sg, t, nm⟩ := e
  simp only at ho hs ht hn ha ⊢
  set seven : List Nat :=
    [o % 256, o / 256 % 256, sg % 256, sg / 256 % 256, t % 256,
     t / 256 % 256, nm.length % 256] with hseven
  have henc : encodePubSym ⟨o, sg, t, nm⟩ = seven ++ nm := encodePubSym_eq _
  have hlen7 : seven.length = 7 := rfl
  have hdata2 : pre ++ (encodePubSym ⟨o, sg, t, nm⟩ ++ suf)
      = (pre ++ seven) ++ (nm ++ suf) := by
    rw [henc]; simp [List.append_assoc]
  rw [hdata2]
  have hlen : ((pre ++ seven) ++ (nm ++ suf)).length
      = pre.length + 7 + nm.length + suf.length := by
    simp [hlen7]; omega
  have hdrop : (((pre ++ seven) ++ (nm ++ suf)).drop pre.length)
      = seven ++ (nm ++ suf) := by
    rw [List.append_assoc pre seven (nm ++ suf)]
    exact List.drop_left pre _
  have hb : (((pre ++ seven) ++ (nm ++ suf)).drop pre.length).take 7 = seven := by
    rw [hdrop, ← hlen7, List.take_left]
  have hnl : seven.getD 6 0 = nm.length := by
    simp [hseven, Nat.mod_eq_of_lt (by omega : nm.length < 256)]
  have hname : (((pre ++ seven) ++ (nm ++ suf)).drop (pre.length + 7)).take nm.length
      = nm := by
    rw [List.drop_left' (by simp [hlen7] : ((pre ++ seven) : List Nat).length = pre.length + 7)]
    exact List.take_left nm suf
  have hofs : u16le (seven.take 2) = o := by
    simp [hseven, u16le]; omega
  have hseg : u16le ((seven.drop 2).take 2) = sg := by
    simp [hseven, u16le]; omega
  have htix : u16le ((seven.drop 4).take 2) = t := by
    simp [hseven, u16le]; omega
  rcases hrec : parsePublicsFuel ((pre ++ seven) ++ (nm ++ suf))
      (pre.length + 7 + nm.length) fuel with err | rest
  all_goals
    rw [parsePublicsFuel]
    rw [if_pos (by omega), if_pos (by omega)]
    simp only [hb, hnl, hname, ha, eq_self_iff_true, if_true, hrec, hofs,
      hseg, htix, Except.map]

/-- Parsing skips over a block of well-formed packed entries, consuming
one unit of fuel per entry, and prepends them to whatever the remainder
of the payload parses to. -/
lemma parsePublicsFuel_skip (es : List PublicSymbol) :
    ∀ (pre suf : List Nat) (fuel : Nat),
      (∀ e ∈ es, pubWF e) → es.length < fuel →
      parsePublicsFuel (pre ++ (encodePublics es ++ suf)) pre.length fuel
        = Except.map (fun l => es ++ l)
            (parsePublicsFuel (pre ++ (encodePublics es ++ suf))
              (pre.length + (encodePublics es).length) (fuel - es.length)) := by
  induction es with
  | nil =>
    intro pre suf fuel _ _
    simp only [encodePublics, List.nil_append, List.length_nil, Nat.add_zero,
      Nat.sub_zero]
    rcases h : parsePublicsFuel (pre ++ suf) pre.length fuel with err | l <;>
      simp [h, Except.map]
  | cons e rest ih =>
    intro pre suf fuel wf hfuel
    obtain ⟨f, rfl⟩ : ∃ f, fuel = f + 1 := ⟨fuel - 1, by omega⟩
    have hwe : pubWF e := wf e (by simp)
    have hdata : pre ++ (encodePublics (e :: rest) ++ suf)
        = pre ++ (encodePubSym e ++ (encodePublics rest ++ suf)) := by
      simp [encodePublics, List.append_assoc]
    rw [hdata, parsePublicsFuel_step pre (encodePublics rest ++ suf) e f hwe]
    have hpre : pre.length + 7 + e.name.length
        = (pre ++ encodePubSym e).length := by
      simp [length_encodePubSym]; omega
    have hdata2 : pre ++ (encodePubSym e ++ (encodePublics rest ++ suf))
        = (pre ++ encodePubSym e) ++ (encodePublics rest ++ suf) := by
      simp [List.append_assoc]
    have hfrest : rest.length < f := by simp at hfuel; omega
    rw [hpre, hdata2,
      ih (pre ++ encodePubSym e) suf f (fun x hx => wf x (by simp [hx])) hfrest]
    have hlen2 : (pre ++ encodePubSym e).length + (encodePublics rest).length
        = pre.length + (encodePublics (e :: rest)).length := by
      simp [encodePublics, length_encodePubSym]; omega
    have hfl : f - rest.length = f + 1 - (e :: rest).length := by simp
    rw [← hdata2, ← hdata, hlen2, hfl]
    rcases hX : parsePublicsFuel (pre ++ (encodePublics (e :: rest) ++ suf))
        (pre.length + (encodePublics (e :: rest)).length)
        (f + 1 - (e :: rest).length) with err | l <;> simp [hX, Except.map]

/-- Claim C7: round-trip of the public-symbol decoder. For every
synthetic sequence of entries, each packed as the 7-byte record
`{offset, segment, typeIndex: u16 LE, nameLength: u8}` followed by the
name bytes, concatenated into one payload, decoding yields exactly the
same entries, in order. -/
theorem sstPublics_roundtrip (es : List PublicSymbol)
    (wf : ∀ e ∈ es, pubWF e) :
    sstPublicsDecode (encodePublics es) = .ok es := by
  unfold sstPublicsDecode
  have hfuel : es.length < (encodePublics es).length + 1 := by
    have := length_encodePublics_ge es; omega
  have h := parsePublicsFuel_skip es [] [] ((encodePublics es).length + 1)
    wf hfuel
  simp only [List.nil_append, List.append_nil, List.length_nil,
    Nat.zero_add] at h
  rw [h, parsePublicsFuel_exit (encodePublics es) (encodePublics es).length
    ((encodePublics es).length + 1 - es.length) (le_refl _)]
  simp [Except.map]

/-- Witness for C7 at a concrete two-entry payload, one entry with a
one-character name and one with an empty name. -/
theorem sstPublics_roundtrip_witness :
    sstPublicsDecode (encodePublics [⟨1, 2, 3, [65]⟩, ⟨65535, 5, 6, []⟩])
      = .ok [⟨1, 2, 3, [65]⟩, ⟨65535, 5, 6, []⟩] :=
  sstPublics_roundtrip [⟨1, 2, 3, [65]⟩, ⟨65535, 5, 6, []⟩] (by decide)

/-- Fuel is a modelling device only: any two fuel values large enough to
cover the remaining bytes give the same parse, so the `data.length + 1`
used by `sstPublicsDecode` can never be exhausted (the cursor advances
by at least 7 per unit of fuel). -/
lemma parsePublicsFuel_fuel_safe (data : List Nat) :
    ∀ fuel fuel' dofs : Nat, data.length ≤ dofs + fuel →
      data.length ≤ dofs + fuel' →
      parsePublicsFuel data dofs fuel = parsePublicsFuel data dofs fuel' := by
  intro fuel
  induction fuel with
  | zero =>
    intro fuel' dofs h h'
    rw [parsePublicsFuel_exit data dofs 0 (by omega),
        parsePublicsFuel_exit data dofs fuel' (by omega)]
  | succ g ih =>
    intro fuel' dofs h h'
    by_cases hd : dofs < data.length
    · obtain ⟨g', rfl⟩ : ∃ g', fuel' = g' + 1 := ⟨fuel' - 1, by omega⟩
      rw [parsePublicsFuel, parsePublicsFuel]
      rw [if_pos hd, if_pos hd]
      by_cases h7 : dofs + 7 ≤ data.length
      · rw [if_pos h7, if_pos h7]
        have hrec := ih g' (dofs + 7 + ((data.drop dofs).take 7).getD 6 0)
          (by omega) (by omega)
        simp only [hrec]
      · rw [if_neg h7, if_neg h7]
    · rw [parsePublicsFuel_exit data dofs _ (by omega),
          parsePublicsFuel_exit data dofs _ (by omega)]

/-- A final 7-byte record that declares `namelen` name bytes while only
`part` remains in the payload: the Python slice silently shortens the
name to `part` and the cursor jumps past the end of the payload, so the
loop exits successfully. -/
lemma parsePublicsFuel_overrun (pre : List Nat) (o sg t namelen : Nat)
    (part : List Nat) (fuel : Nat)
    (ho : o < 65536) (hs : sg < 65536) (ht : t < 65536) (hn : namelen ≤ 255)
    (hover : part.length < namelen) (ha : asciiOk part = true) :
    parsePublicsFuel (pre ++ (le16 o ++ le16 sg ++ le16 t ++ [namelen] ++ part))
      pre.length (fuel + 1) = .ok [⟨o, sg, t, part⟩] := by
  set seven : List Nat :=
    [o % 256, o / 256 % 256, sg % 256, sg / 256 % 256, t % 256,
     t / 256 % 256, namelen] with hseven
  have hlen7 : seven.length = 7 := rfl
  have htail : le16 o ++ le16 sg ++ le16 t ++ [namelen] ++ part
      = seven ++ part := by
    simp [le16, hseven]
  rw [htail]
  have hassoc : pre ++ (seven ++ part) = (pre ++ seven) ++ part := by
    simp [List.append_assoc]
  rw [hassoc]
  have hlen : ((pre ++ seven) ++ part).length
      = pre.length + 7 + part.length := by
    simp [hlen7]; omega
  have hdrop : (((pre ++ seven) ++ part).drop pre.length) = seven ++ part := by
    rw [List.append_assoc pre seven part]
    exact List.drop_left pre _
  have hb : (((pre ++ seven) ++ part).drop pre.length).take 7 = seven := by
    rw [hdrop, ← hlen7, List.take_left]
  have hnl : seven.getD 6 0 = namelen := by simp [hseven]
  have hname : (((pre ++ seven) ++ part).drop (pre.length + 7)).take namelen
      = part := by
    rw [List.drop_left' (by simp [hlen7] :
      ((pre ++ seven) : List Nat).length = pre.length + 7)]
    exact List.take_of_length_le (by omega)
  have hofs : u16le (seven.take 2) = o := by
    simp [hseven, u16le]; omega
  have hseg : u16le ((seven.drop 2).take 2) = sg := by
    simp [hseven, u16le]; omega
  have htix : u16le ((seven.drop 4).take 2) = t := by
    simp [hseven, u16le]; omega
  have hexit : parsePublicsFuel ((pre ++ seven) ++ part)
      (pre.length + 7 + namelen) fuel = .ok [] :=
    parsePublicsFuel_exit _ _ _ (by omega)
  rw [parsePublicsFuel]
  rw [if_pos (by omega), if_pos (by omega)]
  simp only [hb, hnl, hname, ha, eq_self_iff_true, if_true, hexit, hofs,
    hseg, htix]

/-- Claim C1 (amended): a `sstPublics` payload of well-formed entries
in which the declared name length of the final entry overruns the end of the
payload (the 7-byte fixed record fits but fewer than `nameLength` bytes
remain) decodes WITHOUT error: the name of the final symbol is silently
shortened to the bytes that remain. -/
theorem sstPublics_overrun_final_name_truncated (es : List PublicSymbol)
    (wf : ∀ e ∈ es, pubWF e) (o sg t namelen : Nat) (part : List Nat)
    (ho : o < 65536) (hs : sg < 65536) (ht : t < 65536) (hn : namelen ≤ 255)
    (hover : part.length < namelen) (ha : asciiOk part = true) :
    sstPublicsDecode
        (encodePublics es ++ (le16 o ++ le16 sg ++ le16 t ++ [namelen] ++ part))
      = .ok (es ++ [⟨o, sg, t, part⟩]) := by
  unfold sstPublicsDecode
  set tail : List Nat := le16 o ++ le16 sg ++ le16 t ++ [namelen] ++ part
    with htail
  have hlentail : tail.length = 7 + part.length := by simp [htail, le16]; omega
  set N : Nat := (encodePublics es ++ tail).length with hN
  have hge := length_encodePublics_ge es
  have hNlen : N = (encodePublics es).length + 7 + part.length := by
    simp [hN, hlentail]; omega
  have hskip := parsePublicsFuel_skip es [] tail (N + 1) wf (by omega)
  simp only [List.nil_append, List.length_nil, Nat.zero_add] at hskip
  rw [hskip]
  obtain ⟨f, hf⟩ : ∃ f, N + 1 - es.length = f + 1 := ⟨N - es.length, by omega⟩
  rw [hf]
  have hov := parsePublicsFuel_overrun (encodePublics es) o sg t namelen part
    f ho hs ht hn hover ha
  rw [← htail] at hov
  rw [hov]
  simp [Except.map]

/-- Claim C1 fails on the code: a single-entry payload whose 7-byte
record declares 5 name bytes while only 2 remain decodes successfully
(the name silently shortened to the remaining bytes), not with a
structural/truncation error. -/
theorem sstPublics_overrun_cex :
    sstPublicsDecode [0, 0, 0, 0, 0, 0, 5, 65, 66]
      = .ok [⟨0, 0, 0, [65, 66]⟩]
      ∧ ([65, 66] : List Nat).length ≠ 5 := by
  exact ⟨by decide, by decide⟩

/-- Witness for the amended C1 at a concrete overrunning payload. -/
theorem sstPublics_overrun_final_name_truncated_witness :
    sstPublicsDecode
        (encodePublics [] ++ (le16 0 ++ le16 0 ++ le16 0 ++ [5] ++ [65, 66]))
      = .ok ([] ++ [⟨0, 0, 0, [65, 66]⟩]) :=
  sstPublics_overrun_final_name_truncated [] (by simp) 0 0 0 5 [65, 66]
    (by decide) (by decide) (by decide) (by decide) (by decide) (by decide)

/-! ## Helper lemmas about the module decoder -/

/-- Decoding a payload made of a 13-byte header followed by a nonempty
name whose length matches the name-length byte of the header. -/
lemma sstModulesDecode_append (hdr name : List Nat)
    (hh : hdr.length = 13) (hne : name ≠ []) (hlen : name.length ≤ 255)
    (hnl : hdr.getD 12 0 = name.length) (ha : asciiOk name = true) :
    sstModulesDecode (hdr ++ name)
      = .ok ⟨u16le (hdr.take 2), u16le ((hdr.drop 2).take 2),
             u16le ((hdr.drop 4).take 2), u16le ((hdr.drop 6).take 2),
             u16le ((hdr.drop 8).take 2), hdr.getD 10 0, name⟩ := by
  have hne' : name.length ≠ 0 := fun h => hne (List.length_eq_zero.mp h)
  have hlendata : (hdr ++ name).length = 13 + name.length := by
    simp [hh]
  have hgetD12 : (hdr ++ name).getD 12 0 = name.length := by
    rw [List.getD_append hdr name 0 12 (by omega), hnl]
  have hgetD10 : (hdr ++ name).getD 10 0 = hdr.getD 10 0 :=
    List.getD_append hdr name 0 10 (by omega)
  have htail : pyTailSlice (hdr ++ name) name.length = name := by
    unfold pyTailSlice
    rw [if_neg hne', hlendata]
    have h13 : 13 + name.length - name.length = 13 := by omega
    rw [h13]
    exact List.drop_left' hh
  have htake2 : (hdr ++ name).take 2 = hdr.take 2 := by
    rw [List.take_append_eq_append_take, hh]
    simp
  have hdt : ∀ k, k + 2 ≤ 13 →
      ((hdr ++ name).drop k).take 2 = (hdr.drop k).take 2 := by
    intro k hk
    rw [List.drop_append_eq_append_drop, hh]
    have h0 : k - 13 = 0 := by omega
    rw [h0, List.drop_zero, List.take_append_eq_append_take]
    have h2 : 2 - (hdr.drop k).length = 0 := by
      rw [List.length_drop, hh]; omega
    rw [h2]
    simp
  unfold sstModulesDecode
  rw [if_pos (by omega)]
  simp only [hgetD12, htail, ha, eq_self_iff_true, if_true, htake2,
    hdt 2 (by omega), hdt 4 (by omega), hdt 6 (by omega), hdt 8 (by omega),
    hgetD10]

/-- Claim C5 (amended): round-trip of the module decoder holds for
every chosen NONEMPTY ASCII name: decoding the synthetic payload built
from the 13-byte header followed by the name yields the original
`csBase`, `csOfs`, `csLen`, `ovl`, `libIndx`, `nsegs` and name. For the
empty name the round-trip fails: `data[-0:]` is the whole payload, so
the decoded name is the entire 13-byte header, not the empty string. -/
theorem sstModules_roundtrip (cB cO cL ov li ns rv : Nat) (name : List Nat)
    (hB : cB < 65536) (hO : cO < 65536) (hL : cL < 65536) (hV : ov < 65536)
    (hI : li < 65536) (hN : ns < 256) (hR : rv < 256)
    (hne : name ≠ []) (hlen : name.length ≤ 255) (ha : asciiOk name = true) :
    sstModulesDecode (encodeModule cB cO cL ov li ns rv name)
      = .ok ⟨cB, cO, cL, ov, li, ns, name⟩ := by
  have hmod : encodeModule cB cO cL ov li ns rv name
      = [cB % 256, cB / 256 % 256, cO % 256, cO / 256 % 256, cL % 256,
         cL / 256 % 256, ov % 256, ov / 256 % 256, li % 256, li / 256 % 256,
         ns % 256, rv % 256, name.length % 256] ++ name := by
    simp [encodeModule, le16]
  rw [hmod, sstModulesDecode_append _ name (by simp) hne hlen
    (by simp [Nat.mod_eq_of_lt (show name.length < 256 by omega)]) ha]
  simp only [Except.ok.injEq, ModuleRec.mk.injEq]
  refine ⟨?_, ?_, ?_, ?_, ?_, ?_, trivial⟩ <;> · simp [u16le]; omega

/-- Claim C5 fails on the code for the empty name: the synthetic
payload for name `""` is just the 13 header bytes, and `data[-0:]`
slices the WHOLE payload, so the decoded name is the 13 header bytes
rather than the empty string. -/
theorem sstModules_roundtrip_cex :
    sstModulesDecode (encodeModule 0 0 0 0 0 0 0 [])
      = .ok ⟨0, 0, 0, 0, 0, 0, List.replicate 13 0⟩
      ∧ (List.replicate 13 0 : List Nat) ≠ [] := by
  exact ⟨by decide, by decide⟩

/-- Witness for the amended C5 at a concrete module payload with name
`MAIN`. -/
theorem sstModules_roundtrip_witness :
    sstModulesDecode (encodeModule 0x10 0x20 0x30 1 0x1234 2 0 [77, 65, 73, 78])
      = .ok ⟨0x10, 0x20, 0x30, 1, 0x1234, 2, [77, 65, 73, 78]⟩ :=
  sstModules_roundtrip 0x10 0x20 0x30 1 0x1234 2 0 [77, 65, 73, 78]
    (by decide) (by decide) (by decide) (by decide) (by decide) (by decide)
    (by decide) (by decide) (by decide) (by decide)

/-- Claim C6 (amended): the decoded `libIndx` field equals the FULL
16-bit little-endian value of header bytes 8..9 (`libIndexAndFlags`),
not its low byte; it is bounded by 65536 rather than 256. -/
theorem sstModules_libIndx_full_u16 (data : List Nat) (r : ModuleRec)
    (h : sstModulesDecode data = .ok r) :
    r.libIndx = u16le ((data.drop 8).take 2) := by
  unfold sstModulesDecode at h
  by_cases h13 : 13 ≤ data.length
  · rw [if_pos h13] at h
    by_cases hA : asciiOk (pyTailSlice data (data.getD 12 0)) = true
    · simp only [hA, if_true] at h
      cases h
      rfl
    · simp only [hA] at h
      simp at h
  · rw [if_neg h13] at h
    cases h

/-- Claim C6 fails on the code: a 13-byte payload whose bytes 8..9 hold
`0x34 0x12` decodes with `libIndx = 0x1234`, which is neither the low
byte `0x34` nor representable as a u8. -/
theorem sstModules_libIndx_cex :
    sstModulesDecode [0, 0, 0, 0, 0, 0, 0, 0, 0x34, 0x12, 0, 0, 0]
      = .ok ⟨0, 0, 0, 0, 0x1234, 0,
             [0, 0, 0, 0, 0, 0, 0, 0, 0x34, 0x12, 0, 0, 0]⟩
      ∧ (0x1234 : Nat) ≠ 0x34 ∧ ¬((0x1234 : Nat) < 256) := by
  exact ⟨by decide, by decide, by decide⟩

/-- Witness for the amended C6 at a concrete payload. -/
theorem sstModules_libIndx_full_u16_witness :
    (⟨0, 0, 0, 0, 0x1234, 0,
      [0, 0, 0, 0, 0, 0, 0, 0, 0x34, 0x12, 0, 0, 0]⟩ : ModuleRec).libIndx
      = u16le (([0, 0, 0, 0, 0, 0, 0, 0, 0x34, 0x12, 0, 0, 0].drop 8).take 2) :=
  sstModules_libIndx_full_u16 [0, 0, 0, 0, 0, 0, 0, 0, 0x34, 0x12, 0, 0, 0]
    ⟨0, 0, 0, 0, 0x1234, 0, [0, 0, 0, 0, 0, 0, 0, 0, 0x34, 0x12, 0, 0, 0]⟩
    (by decide)


/-! ## Subsection-type validation (claim C2) -/

/-- Claim C2 (amended): `readSubsectionDirectory` classifies a directory
entry if and only if its type is one of the EIGHT defined enumerants
(`0x101`..`0x106`, `0x108`, `0x109`); a type outside that closed set
(such as `0x107`) makes the whole read fail with `ValueError` before
any decoder is consulted (no effect is performed). -/
theorem sst_classification_closed_set :
    SSTvalues.length = 8 ∧
    (∀ sst : Nat, sstValid sst = true ↔ sst ∈ SSTvalues) ∧
    (∀ (dlfa n : Nat) (s : FileState) (sst md lfo cb : Nat),
      headerFields s.bytes s.pos = some (sst, md, lfo, cb) →
      sstValid sst = false →
      readEntries dlfa (n + 1) s = ([], .error .valueError)) := by
  refine ⟨by decide, fun sst => by simp [sstValid], ?_⟩
  intro dlfa n s sst md lfo cb h hinvalid
  simp only [headerFields] at h
  split_ifs at h with hlen
  · simp only [Option.some.injEq, Prod.mk.injEq] at h
    obtain ⟨hsst, hmd, hlfo, hcb⟩ := h
    rw [readEntries]
    simp only [fread]
    rw [if_pos hlen]
    rw [hsst, if_neg (by rw [hinvalid]; exact Bool.false_ne_true)]

/-- Claim C2 fails as stated: the defined enumerant set has EIGHT
members (0x107 is missing from the range 0x101..0x109), not nine, and
the in-range value 0x107 fails a one-entry directory read with
`ValueError`. -/
theorem sst_nine_enumerants_cex :
    SSTvalues.length = 8 ∧ SSTvalues.length ≠ 9 ∧ sstValid 0x107 = false ∧
    readEntries 0 1 ⟨[7, 1, 0, 0, 0, 0, 0, 0, 0, 0], 0⟩
      = ([], .error .valueError) := by
  exact ⟨by decide, by decide, by decide, by decide⟩

/-- Witness for the amended C2: a concrete header with type `0x107`
fails the whole read with `ValueError` and performs no effect. -/
theorem sst_classification_closed_set_witness :
    readEntries 0 (0 + 1) ⟨[7, 1, 0, 0, 0, 0, 0, 0, 0, 0], 0⟩
      = ([], .error .valueError) :=
  sst_classification_closed_set.2.2 0 0 ⟨[7, 1, 0, 0, 0, 0, 0, 0, 0, 0], 0⟩
    263 0 0 0 (by decide) (by decide)

/-! ## Locator lemmas -/

lemma mem_candidates_bounds {c : Int} (hc : c ∈ candidates) :
    -255 ≤ c ∧ c ≤ -8 := by
  have h : candidates = (List.range 248).map (fun i => (-8 : Int) - Int.ofNat i) := by
    have h248 : ((-8 : Int) - (-256)).toNat = 248 := by decide
    unfold candidates pyRangeDown
    rw [h248]
  rw [h, List.mem_map] at hc
  obtain ⟨i, hi, hce⟩ := hc
  rw [List.mem_range] at hi
  rw [Int.ofNat_eq_natCast] at hce
  omega

/-- Scanning candidates whose 8-byte windows never start with `NB0`
(and whose seeks stay in the file) exhausts the list and returns
`none`. -/
lemma scanCodeview_no_match (file : List Nat) :
    ∀ cs : List Int,
      (∀ c ∈ cs, -255 ≤ c ∧ c ≤ -8) →
      255 ≤ file.length →
      (∀ c ∈ cs,
        isNB0 ((file.drop ((file.length : Int) + c).toNat).take 4) = false) →
      scanCodeview file cs = .ok none := by
  intro cs
  induction cs with
  | nil => intro _ _ _; rfl
  | cons c rest ih =>
    intro hb hl hm
    obtain ⟨hc1, hc2⟩ := hb c (by simp)
    have hnegF : (((file.length : Int) + c < 0)) = False :=
      eq_false (by omega)
    have hblen : ((file.drop ((file.length : Int) + c).toNat).take 8).length
        = 8 := by
      rw [List.length_take, List.length_drop]
      have : ((file.length : Int) + c).toNat + 8 ≤ file.length := by omega
      omega
    have hsig : ((file.drop ((file.length : Int) + c).toNat).take 8).take 4
        = (file.drop ((file.length : Int) + c).toNat).take 4 := by
      rw [List.take_take]; norm_num
    have hfalse := hm c (by simp)
    rw [scanCodeview]
    simp only [hnegF, if_false, hblen, hsig, hfalse, eq_self_iff_true,
      if_true, Bool.false_eq_true]
    exact ih (fun x hx => hb x (by simp [hx])) hl
      (fun x hx => hm x (by simp [hx]))


/-- Claim C3 (amended): `findCodeview` examines exactly 248 candidate
start positions (`range(-8, -256, -1)` stops at `-255`), at byte
offsets `-8, -9, ..., -255` from end-of-file, scanning backward one
byte at a time; when the scan exhausts every candidate without an
accepted match — in particular for any file of at least 255 bytes none
of whose candidate windows starts with `NB0` — it returns the
recoverable `none`, not an error. -/
theorem findCodeview_scan_positions :
    candidates.length = 248 ∧
    (∀ i : Nat, i < 248 → candidates.getD i 0 = -8 - (i : Int)) ∧
    (∀ file : List Nat, 255 ≤ file.length →
      (∀ ofs ∈ candidates,
        isNB0 ((file.drop ((file.length : Int) + ofs).toNat).take 4) = false) →
      findCodeview file = .ok none) := by
  refine ⟨by decide, by decide, ?_⟩
  intro file hl hm
  exact scanCodeview_no_match file candidates
    (fun c hc => mem_candidates_bounds hc) hl hm

/-- Claim C3 fails as stated: the scan examines 248 candidate
positions (offsets −8..−255), not 256. -/
theorem findCodeview_256_positions_cex :
    candidates.length = 248 ∧ candidates.length ≠ 256 := by
  exact ⟨by decide, by decide⟩

/-- Witness for the amended C3: the first candidate offset is −8, the
last is −255, and a 255-byte zero file scans to `none`. -/
theorem findCodeview_scan_positions_witness :
    candidates.getD 0 0 = -8 ∧ candidates.getD 247 0 = -255 ∧
    findCodeview (List.replicate 255 0) = .ok none := by
  refine ⟨findCodeview_scan_positions.2.1 0 (by decide),
    ?_, findCodeview_scan_positions.2.2 (List.replicate 255 0)
      (by decide) (by decide)⟩
  have h := findCodeview_scan_positions.2.1 247 (by decide)
  rw [h]; decide

/-- Claim C4 (amended): for every file shorter than 8 bytes the very
first seek (`fp.seek(-8, 2)`) targets a negative position and `locate`
RAISES a seek error — it does not return the not-found value; the
not-found value `none` is returned for files of at least 255 bytes
whose candidate windows never start with `NB0`. -/
theorem findCodeview_notFound_behavior :
    (∀ file : List Nat, file.length < 8 →
      findCodeview file = .error .seekError) ∧
    (∀ file : List Nat, 255 ≤ file.length →
      (∀ ofs ∈ candidates,
        isNB0 ((file.drop ((file.length : Int) + ofs).toNat).take 4) = false) →
      findCodeview file = .ok none) := by
  constructor
  · intro file hshort
    have hc : candidates = -8 :: ((List.range 247).map
        (fun i => (-9 : Int) - Int.ofNat i)) := by decide
    rw [findCodeview, hc, scanCodeview]
    have hneg : (((file.length : Int) + -8 < 0)) = True :=
      eq_true (by omega)
    simp only [hneg, if_true]
  · intro file hl hm
    exact scanCodeview_no_match file candidates
      (fun c hc => mem_candidates_bounds hc) hl hm

/-- Claim C4 fails as stated: the empty file (shorter than 8 bytes)
makes `locate` raise a seek error, which is not the not-found value. -/
theorem findCodeview_short_file_cex :
    findCodeview [] = .error .seekError ∧
    (Except.error .seekError
      : Except PyErr (Option (List Nat × Int × Int))) ≠ .ok none := by
  exact ⟨by decide, by decide⟩

/-- Witness for the amended C4: the empty file raises a seek error; a
300-byte zero file returns `none`. -/
theorem findCodeview_notFound_behavior_witness :
    findCodeview [] = .error .seekError ∧
    findCodeview (List.replicate 300 0) = .ok none := by
  exact ⟨findCodeview_notFound_behavior.1 [] (by decide),
    findCodeview_notFound_behavior.2 (List.replicate 300 0)
      (by decide) (by decide)⟩


/-- Any accepted result of the candidate scan satisfies the trailer
contract: the base is in bounds, the nested signature at the base
starts with `NB0`, and the directory offset is the nested u32 plus the
base. -/
lemma scanCodeview_accept (file : List Nat) :
    ∀ (cs : List Int) (sig : List Nat) (base dir : Int),
      scanCodeview file cs = .ok (some (sig, base, dir)) →
      0 ≤ base ∧ base ≤ (file.length : Int) ∧
      isNB0 ((file.drop base.toNat).take 4) = true ∧
      dir = (u32le ((file.drop (base.toNat + 4)).take 4) : Int) + base := by
  intro cs
  induction cs with
  | nil =>
    intro sig base dir h
    simp [scanCodeview] at h
  | cons c rest ih =>
    intro sig base dir h
    simp only [scanCodeview] at h
    split_ifs at h with h1 h2 h3 h4 h5 h6 h7
    all_goals try exact ih sig base dir h
    rw [Except.ok.injEq, Option.some.injEq, Prod.mk.injEq, Prod.mk.injEq] at h
    obtain ⟨hsig, hbase, hdir⟩ := h
    rw [not_or, not_lt, not_lt] at h4
    obtain ⟨hb0, hbsz⟩ := h4
    subst hbase
    subst hdir
    refine ⟨hb0, hbsz, ?_, ?_⟩
    · rw [← h6]
      congr 1
      rw [List.take_take]
      norm_num
    · congr 1
      rw [List.drop_take, List.drop_drop]


/-- Claim C9: whenever `findCodeview` succeeds with
`(sig, baseOffset, directoryOffset)`, the 4 bytes at `baseOffset` start
with `NB0`, `directoryOffset` equals the u32 relative
offset (bytes `baseOffset+4 .. baseOffset+7`) plus `baseOffset`, and
the accepted `baseOffset` is non-negative and does not exceed the file
size. -/
theorem findCodeview_sound (file sig : List Nat) (base dir : Int)
    (h : findCodeview file = .ok (some (sig, base, dir))) :
    0 ≤ base ∧ base ≤ (file.length : Int) ∧
    isNB0 ((file.drop base.toNat).take 4) = true ∧
    dir = (u32le ((file.drop (base.toNat + 4)).take 4) : Int) + base :=
  scanCodeview_accept file candidates sig base dir h

/-- Witness for C9 on a concrete 8-byte file that is its own CodeView
trailer (`NB00` + u32 le 8): locate succeeds with base 0 and directory
offset 8. -/
theorem findCodeview_sound_witness :
    findCodeview [78, 66, 48, 48, 8, 0, 0, 0]
      = .ok (some ([78, 66, 48, 48], 0, 8)) ∧
    (0 : Int) ≤ 0 ∧ (0 : Int) ≤ (([78, 66, 48, 48, 8, 0, 0, 0] : List Nat).length : Int) ∧
    isNB0 ((([78, 66, 48, 48, 8, 0, 0, 0] : List Nat).drop (0 : Int).toNat).take 4) = true ∧
    (8 : Int) = (u32le ((([78, 66, 48, 48, 8, 0, 0, 0] : List Nat).drop ((0 : Int).toNat + 4)).take 4) : Int) + 0 := by
  refine ⟨by decide, le_refl 0, ?_⟩
  exact (findCodeview_sound [78, 66, 48, 48, 8, 0, 0, 0] [78, 66, 48, 48] 0 8
    (by decide)).2


/-! ## Directory reader lemmas -/

/-- Successful runs of the entry loop return one decoded record per
requested entry, in directory order: the i-th returned record is
decoded from the i-th 10-byte header (headers are contiguous at
`pos + 10*i` because the cursor is restored after each payload seek)
against the payload bytes that header references. -/
lemma readEntries_spec (dlfa : Nat) :
    ∀ (n : Nat) (s : FileState) (effs : List Eff) (l : List Subsec)
      (sF : FileState),
      readEntries dlfa n s = (effs, .ok (l, sF)) →
      l.length = n ∧
      ∀ i, i < n → ∃ sst md lfo cb,
        headerFields s.bytes (s.pos + 10 * i) = some (sst, md, lfo, cb) ∧
        ∃ hl : i < l.length,
          (decodeSub sst md ((s.bytes.drop (lfo + dlfa)).take cb)).2
            = .ok (l.get ⟨i, hl⟩) := by
  intro n
  induction n with
  | zero =>
    intro s effs l sF h
    rw [readEntries] at h
    rw [Prod.mk.injEq, Except.ok.injEq, Prod.mk.injEq] at h
    obtain ⟨-, hl, -⟩ := h
    subst hl
    exact ⟨rfl, fun i hi => absurd hi (Nat.not_lt_zero i)⟩
  | succ n ihn =>
    intro s effs l sF h
    rw [readEntries] at h
    simp only [fread, fseekAbs] at h
    split_ifs at h with hlen10 hvalid
    all_goals try
      (rw [Prod.mk.injEq] at h
       exact absurd h.2 (fun hh => Except.noConfusion hh))
    rcases hd : decodeSub (u16le (((s.bytes.drop s.pos).take 10).take 2))
        (u16le ((((s.bytes.drop s.pos).take 10).drop 2).take 2))
        ((s.bytes.drop
            (u32le ((((s.bytes.drop s.pos).take 10).drop 4).take 4) + dlfa)).take
          (u16le (((s.bytes.drop s.pos).take 10).drop 8)))
      with ⟨effs1, res1⟩
    rw [hd] at h
    rcases res1 with e | sub
    · rw [Prod.mk.injEq] at h
      exact absurd h.2 (fun hh => Except.noConfusion hh)
    · have hmin : min (s.pos + 10) s.bytes.length = s.pos + 10 := by
        rw [List.length_take, List.length_drop] at hlen10
        omega
      rw [hmin] at h
      rcases hre : readEntries dlfa n ⟨s.bytes, s.pos + 10⟩ with ⟨effs2, res2⟩
      rw [hre] at h
      rcases res2 with e | ⟨subs, sF2⟩
      · rw [Prod.mk.injEq] at h
        exact absurd h.2 (fun hh => Except.noConfusion hh)
      · rw [Prod.mk.injEq, Except.ok.injEq, Prod.mk.injEq] at h
        obtain ⟨-, hl, -⟩ := h
        subst hl
        obtain ⟨hlen, hspec⟩ := ihn ⟨s.bytes, s.pos + 10⟩ effs2 subs sF2 hre
        refine ⟨by simp [hlen], ?_⟩
        intro i hi
        cases i with
        | zero =>
          refine ⟨u16le (((s.bytes.drop s.pos).take 10).take 2),
            u16le ((((s.bytes.drop s.pos).take 10).drop 2).take 2),
            u32le ((((s.bytes.drop s.pos).take 10).drop 4).take 4),
            u16le (((s.bytes.drop s.pos).take 10).drop 8), ?_, ?_⟩
          · simp only [headerFields, Nat.mul_zero, Nat.add_zero]
            rw [if_pos hlen10]
          · exact ⟨by simp, by simp [hd]⟩
        | succ j =>
          have hj : j < n := by omega
          obtain ⟨sst, md, lfo, cb, hhdr, hl2, hdec⟩ := hspec j hj
          refine ⟨sst, md, lfo, cb, ?_, ?_⟩
          · have hpos : s.pos + 10 * (j + 1) = (s.pos + 10) + 10 * j := by ring
            rw [hpos]
            exact hhdr
          · exact ⟨by simpa using Nat.succ_lt_succ (hlen ▸ hl2 : j < subs.length),
              by simpa using hdec⟩


/-- Claim C8: for every well-formed directory (one whose read succeeds)
whose 2-byte count field reads `N`, `readSubsectionDirectory` returns
exactly `N` subsection records, and the i-th returned record is decoded
from the i-th 10-byte directory header (directory order preserved). -/
theorem readDirectory_count_order (s : FileState) (dlfa : Nat)
    (effs : List Eff) (l : List Subsec) (sF : FileState)
    (h : readSubsectionDirectory s dlfa = (effs, .ok (l, sF))) :
    l.length = u16le ((s.bytes.drop s.pos).take 2) ∧
    ∀ i, i < l.length → ∃ sst md lfo cb,
      headerFields s.bytes (s.pos + 2 + 10 * i) = some (sst, md, lfo, cb) ∧
      ∃ hl : i < l.length,
        (decodeSub sst md ((s.bytes.drop (lfo + dlfa)).take cb)).2
          = .ok (l.get ⟨i, hl⟩) := by
  rw [readSubsectionDirectory] at h
  simp only [fread] at h
  split_ifs at h with hlen2
  · have hmin : min (s.pos + 2) s.bytes.length = s.pos + 2 := by
      rw [List.length_take, List.length_drop] at hlen2
      omega
    rw [hmin] at h
    rcases hre : readEntries dlfa (u16le ((s.bytes.drop s.pos).take 2))
        ⟨s.bytes, s.pos + 2⟩ with ⟨effs2, res⟩
    rw [hre] at h
    rw [Prod.mk.injEq] at h
    rcases res with e | ⟨l2, sF2⟩
    · exact absurd h.2 (fun hh => Except.noConfusion hh)
    · rw [Except.ok.injEq, Prod.mk.injEq] at h
      obtain ⟨-, hl, -⟩ := h
      subst hl
      obtain ⟨hlen, hspec⟩ := readEntries_spec dlfa
        (u16le ((s.bytes.drop s.pos).take 2)) ⟨s.bytes, s.pos + 2⟩
        effs2 l2 sF2 hre
      refine ⟨hlen, ?_⟩
      intro i hi
      obtain ⟨sst, md, lfo, cb, hhdr, hl2, hdec⟩ := hspec i (hlen ▸ hi)
      exact ⟨sst, md, lfo, cb, hhdr, hl2, hdec⟩
  · rw [Prod.mk.injEq] at h
    exact absurd h.2 (fun hh => Except.noConfusion hh)

/-- Witness for C8 on a concrete one-entry directory: the count field
reads 1 and one record of type `0x103` is returned with its payload. -/
theorem readDirectory_count_order_witness :
    readSubsectionDirectory ⟨[1, 0, 3, 1, 0, 0, 12, 0, 0, 0, 2, 0, 9, 9], 0⟩ 0
      = ([Eff.printOut 1],
         .ok ([Subsec.plain 0x103 0 [9, 9]],
              ⟨[1, 0, 3, 1, 0, 0, 12, 0, 0, 0, 2, 0, 9, 9], 12⟩)) ∧
    ([Subsec.plain 0x103 0 [9, 9]] : List Subsec).length
      = u16le ((([1, 0, 3, 1, 0, 0, 12, 0, 0, 0, 2, 0, 9, 9] : List Nat).drop 0).take 2) := by
  refine ⟨by decide, ?_⟩
  exact (readDirectory_count_order ⟨[1, 0, 3, 1, 0, 0, 12, 0, 0, 0, 2, 0, 9, 9], 0⟩
    0 [Eff.printOut 1] [Subsec.plain 0x103 0 [9, 9]]
    ⟨[1, 0, 3, 1, 0, 0, 12, 0, 0, 0, 2, 0, 9, 9], 12⟩ (by decide)).1

/-- Every effect emitted by the factory dispatch is the publics
dump by the publics decoder of its raw payload to the file `"pub"`. -/
lemma decodeSub_effects (sst md : Nat) (data : List Nat) :
    ∀ eff ∈ (decodeSub sst md data).1, eff = Eff.fileWrite "pub" data := by
  unfold decodeSub
  split_ifs <;> simp

/-- Every effect emitted by the entry loop is a dump of some payload to
the file `"pub"`. -/
lemma readEntries_effects (dlfa : Nat) :
    ∀ (n : Nat) (s : FileState) (eff : Eff),
      eff ∈ (readEntries dlfa n s).1 →
      ∃ d, eff = Eff.fileWrite "pub" d := by
  intro n
  induction n with
  | zero =>
    intro s eff hmem
    rw [readEntries] at hmem
    simp at hmem
  | succ n ihn =>
    intro s eff hmem
    rw [readEntries] at hmem
    simp only [fread, fseekAbs] at hmem
    by_cases hlen10 : ((s.bytes.drop s.pos).take 10).length = 10
    · rw [if_pos hlen10] at hmem
      by_cases hvalid : sstValid (u16le (((s.bytes.drop s.pos).take 10).take 2)) = true
      · rw [if_pos hvalid] at hmem
        rcases hd : decodeSub (u16le (((s.bytes.drop s.pos).take 10).take 2))
            (u16le ((((s.bytes.drop s.pos).take 10).drop 2).take 2))
            ((s.bytes.drop
                (u32le ((((s.bytes.drop s.pos).take 10).drop 4).take 4) + dlfa)).take
              (u16le (((s.bytes.drop s.pos).take 10).drop 8)))
          with ⟨effs1, res1⟩
        rw [hd] at hmem
        have hfx : ∀ e ∈ effs1, ∃ d, e = Eff.fileWrite "pub" d := by
          intro e he
          exact ⟨_, decodeSub_effects _ _ _ e (by rw [hd]; exact he)⟩
        rcases res1 with e | sub
        · exact hfx eff hmem
        · rcases hre : readEntries dlfa n
              ⟨s.bytes, min (s.pos + 10) s.bytes.length⟩ with ⟨effs2, res2⟩
          rw [hre] at hmem
          rcases res2 with e | ⟨subs, sF2⟩ <;>
          · rw [List.mem_append] at hmem
            rcases hmem with hmem | hmem
            · exact hfx eff hmem
            · exact ihn _ eff (by rw [hre]; exact hmem)
      · rw [if_neg hvalid] at hmem
        simp at hmem
    · rw [if_neg hlen10] at hmem
      simp at hmem


/-- Claim C10 (amended): the only outputs of the directory read besides
moving the file cursor are `print(cdnt)` on stdout and the publics
dump by the publics decoder of its raw payload to the file `"pub"`; no decoder
mutates its payload — every successfully decoded subsection carries its
payload bytes unchanged. -/
theorem readDirectory_frame :
    (∀ (s : FileState) (dlfa : Nat) (eff : Eff),
      eff ∈ (readSubsectionDirectory s dlfa).1 →
      (∃ n, eff = Eff.printOut n) ∨ ∃ d, eff = Eff.fileWrite "pub" d) ∧
    (∀ (sst md : Nat) (data : List Nat) (effs : List Eff) (sub : Subsec),
      decodeSub sst md data = (effs, .ok sub) → sub.payload = data) := by
  constructor
  · intro s dlfa eff hmem
    rw [readSubsectionDirectory] at hmem
    simp only [fread] at hmem
    by_cases hlen2 : ((s.bytes.drop s.pos).take 2).length = 2
    · rw [if_pos hlen2] at hmem
      simp only [List.mem_cons] at hmem
      rcases hmem with heq | hmem2
      · exact Or.inl ⟨_, heq⟩
      · exact Or.inr (readEntries_effects dlfa _ _ eff hmem2)
    · rw [if_neg hlen2] at hmem
      simp at hmem
  · intro sst md data effs sub h
    unfold decodeSub at h
    split_ifs at h with h1 h2
    · rcases hm : sstModulesDecode data with e | r <;> rw [hm] at h <;>
        simp only [Except.map, Prod.mk.injEq, Except.ok.injEq] at h
      · exact absurd h.2 (fun hh => Except.noConfusion hh)
      · rw [← h.2]
        rfl
    · rcases hm : sstPublicsDecode data with e | syms <;> rw [hm] at h <;>
        simp only [Except.map, Prod.mk.injEq, Except.ok.injEq] at h
      · exact absurd h.2 (fun hh => Except.noConfusion hh)
      · rw [← h.2]
        rfl
    · rw [Prod.mk.injEq, Except.ok.injEq] at h
      rw [← h.2]
      rfl

/-- Claim C10 fails as stated: even an empty directory read prints the
subsection count to stdout, and a publics payload is dumped to the file
`"pub"` before decoding — the read is not free of external output. -/
theorem readDirectory_silent_cex :
    readSubsectionDirectory ⟨[0, 0], 0⟩ 0
      = ([Eff.printOut 0], .ok ([], ⟨[0, 0], 2⟩))
      ∧ ([Eff.printOut 0] : List Eff) ≠ []
      ∧ (decodeSub 0x102 0 [9]).1 = [Eff.fileWrite "pub" [9]] := by
  exact ⟨by decide, by decide, by decide⟩

/-- Witness for the amended C10 at the empty directory and an empty
publics payload. -/
theorem readDirectory_frame_witness :
    ((∃ n, Eff.printOut 0 = Eff.printOut n)
      ∨ ∃ d, Eff.printOut 0 = Eff.fileWrite "pub" d)
    ∧ (Subsec.publics 0x102 0 [] []).payload = [] := by
  refine ⟨readDirectory_frame.1 ⟨[0, 0], 0⟩ 0 (Eff.printOut 0) (by decide), ?_⟩
  exact readDirectory_frame.2 0x102 0 [] [Eff.fileWrite "pub" []]
    (Subsec.publics 0x102 0 [] []) (by decide)

end Symbolik
